import Mathlib

/-!
Shallow embedding of the nano-neuron linear-regression trainer
(src/src/index.ts) and proofs of its specified properties.

Numbers are modelled by an arbitrary linear ordered field `K`
(instantiated at `ℚ` for executable checks and at `ℝ` for calculus).
The mutable `NanoNeuron` object is modelled by explicit state passing:
a JavaScript method that mutates its receiver becomes a Lean function
returning the updated receiver.
-/

namespace NanoNeuronTS

variable {K : Type} [LinearOrderedField K]

/-- The model of the source `class NanoNeuron { w; b }`: two scalar
parameters, weight and bias. -/
structure NanoNeuron (K : Type) where
  w : K
  b : K
  deriving Repr, DecidableEq

/-- Source `predict(x) { return x * this.w + this.b; }`. -/
def NanoNeuron.predict (model : NanoNeuron K) (x : K) : K :=
  x * model.w + model.b

/-- Source `predictionCost(y, yPredicted) { return (y - yPredicted) ** 2 / 2; }`. -/
def predictionCost (y yPredicted : K) : K :=
  (y - yPredicted) ^ 2 / 2

/-- Result record of `forwardPropagation`: the predictions array and the
average cost. -/
structure ForwardResult (K : Type) where
  predictions : List K
  averageCost : K
  deriving Repr

/-- Source `forwardPropagation(model, xTrain, yTrain)`: the loop
`for (i = 0; i < m; i++) { yPredicted = model.predict(xTrain[i]);
cost += predictionCost(yTrain[i], yPredicted); predictions.push(yPredicted); }`
followed by `averageCost = cost / m`, with `m = xTrain.length`.
Array indexing `a[i]` is modelled by `List.getD a i 0` (total indexing;
all accesses are proved in bounds separately). -/
def forwardPropagation (model : NanoNeuron K) (xTrain yTrain : List K) :
    ForwardResult K :=
  let m := xTrain.length
  let predictions := (List.range m).map fun i => model.predict (xTrain.getD i 0)
  let cost := ((List.range m).map fun i =>
    predictionCost (yTrain.getD i 0) (model.predict (xTrain.getD i 0))).sum
  { predictions := predictions, averageCost := cost / (m : K) }

/-- Result record of `backwardPropagation`: the averaged parameter deltas. -/
structure BackwardResult (K : Type) where
  averageDeltaW : K
  averageDeltaB : K
  deriving Repr

/-- Source `backwardPropagation(predictions, xTrain, yTrain)`: the loop
`for (i = 0; i < m; i++) { deltaW += (yTrain[i] - predictions[i]) * xTrain[i];
deltaB += yTrain[i] - predictions[i]; }` followed by the division of both
accumulators by `m = xTrain.length`. -/
def backwardPropagation (predictions xTrain yTrain : List K) :
    BackwardResult K :=
  let m := xTrain.length
  let deltaW := ((List.range m).map fun i =>
    (yTrain.getD i 0 - predictions.getD i 0) * xTrain.getD i 0).sum
  let deltaB := ((List.range m).map fun i =>
    yTrain.getD i 0 - predictions.getD i 0).sum
  { averageDeltaW := deltaW / (m : K), averageDeltaB := deltaB / (m : K) }

/-- One iteration of the source training loop body: forward propagation,
then backward propagation on its predictions, then the in-place update
`model.w += averageDeltaW * alpha; model.b += averageDeltaB * alpha`,
modelled by returning the updated model together with the `averageCost`
recorded for the cost history. -/
def trainStep (model : NanoNeuron K) (alpha : K) (xTrain yTrain : List K) :
    NanoNeuron K × K :=
  let fwd := forwardPropagation model xTrain yTrain
  let bwd := backwardPropagation fwd.predictions xTrain yTrain
  (⟨model.w + bwd.averageDeltaW * alpha, model.b + bwd.averageDeltaB * alpha⟩,
   fwd.averageCost)

/-- Source `trainModel(model, epochs, alpha, xTrain, yTrain)`: runs the
loop body `epochs` times, pushing each iteration's `averageCost` onto
`costHistory` before the parameter update; returns the final model state
together with the cost history. -/
def trainModel (model : NanoNeuron K) (epochs : Nat) (alpha : K)
    (xTrain yTrain : List K) : NanoNeuron K × List K :=
  match epochs with
  | 0 => (model, [])
  | e + 1 =>
    let s := trainStep model alpha xTrain yTrain
    let rest := trainModel s.1 e alpha xTrain yTrain
    (rest.1, s.2 :: rest.2)

/-- Bounds-checked variant of `forwardPropagation`: every array access
`a[i]` of the source loop is replaced by the partial lookup `a.get? i`,
and the final division is preceded by a check that the divisor `m` is
nonzero; any out-of-bounds access or zero divisor yields `none`. Used to
express that the unchecked code performs no out-of-range access and no
division by zero on well-formed inputs. -/
def forwardPropagationChecked (model : NanoNeuron K) (xTrain yTrain : List K) :
    Option (ForwardResult K) := do
  let m := xTrain.length
  let predictions ← (List.range m).mapM fun i => do
    let x ← xTrain.get? i
    pure (model.predict x)
  let costs ← (List.range m).mapM fun i => do
    let x ← xTrain.get? i
    let y ← yTrain.get? i
    pure (predictionCost y (model.predict x))
  if m = 0 then none
  else pure { predictions := predictions, averageCost := costs.sum / (m : K) }

/-- Bounds-checked variant of `backwardPropagation`, in the same sense as
`forwardPropagationChecked`. -/
def backwardPropagationChecked (predictions xTrain yTrain : List K) :
    Option (BackwardResult K) := do
  let m := xTrain.length
  let deltaWs ← (List.range m).mapM fun i => do
    let y ← yTrain.get? i
    let p ← predictions.get? i
    let x ← xTrain.get? i
    pure ((y - p) * x)
  let deltaBs ← (List.range m).mapM fun i => do
    let y ← yTrain.get? i
    let p ← predictions.get? i
    pure (y - p)
  if m = 0 then none
  else pure { averageDeltaW := deltaWs.sum / (m : K),
              averageDeltaB := deltaBs.sum / (m : K) }

/-- The mutable state visible to the core functions: the model object
(whose fields `w`, `b` are assignable) and the two input arrays passed by
reference. -/
structure ProgState (K : Type) where
  model : NanoNeuron K
  xTrain : List K
  yTrain : List K

/-- State-passing form of the method call `model.predict(x)`: the body
`return x * this.w + this.b` only reads the receiver fields and assigns
nothing, so the translated call returns the incoming state. -/
def predictS (s : ProgState K) (x : K) : K × ProgState K :=
  (x * s.model.w + s.model.b, s)

/-- State-passing form of `forwardPropagation(model, xTrain, yTrain)`:
the loop writes only the function-local variables `cost` and
`predictions`, never a model field or an array cell, so the translated
call computes the pure `forwardPropagation` and returns the incoming
state. -/
def forwardPropagationS (s : ProgState K) : ForwardResult K × ProgState K :=
  (forwardPropagation s.model s.xTrain s.yTrain, s)

/-- State-passing form of `backwardPropagation(predictions, xTrain,
yTrain)`: the loop writes only the local accumulators `deltaW` and
`deltaB`, so the translated call computes the pure `backwardPropagation`
and returns the incoming state. -/
def backwardPropagationS (predictions : List K) (s : ProgState K) :
    BackwardResult K × ProgState K :=
  (backwardPropagation predictions s.xTrain s.yTrain, s)

/-- Source constant `W = 1.8`. -/
def W : ℚ := 1.8

/-- Source constant `B = 32`. -/
def B : ℚ := 32

/-- Source `celsiusToFahrenheit = (c) => c * W + B`. -/
def celsiusToFahrenheit (c : ℚ) : ℚ := c * W + B

/-- Record returned by `generateDataSets`. -/
structure DataSets where
  xTrain : List ℚ
  yTrain : List ℚ
  xTest : List ℚ
  yTest : List ℚ
  deriving Repr

/-- Source `generateDataSets()`: the loop `for (x = 0; x < 100; x += 1)`
pushes `x` and `celsiusToFahrenheit(x)` (iterates x = 0, 1, ..., 99), and
the loop `for (x = 0.5; x < 100; x += 1)` pushes `x` and
`celsiusToFahrenheit(x)` (iterates x = 0.5, 1.5, ..., 99.5, i.e.
`n + 0.5` for n = 0, ..., 99). -/
def generateDataSets : DataSets :=
  { xTrain := (List.range 100).map fun n : ℕ => (n : ℚ)
    yTrain := (List.range 100).map fun n : ℕ => celsiusToFahrenheit (n : ℚ)
    xTest := (List.range 100).map fun n : ℕ => (n : ℚ) + 0.5
    yTest := (List.range 100).map fun n : ℕ => celsiusToFahrenheit ((n : ℚ) + 0.5) }

/-! Bridging lemmas between the index-based loops of the source and
structural forms of the same sums. -/

theorem list_range_sum_eq (n : ℕ) (f : ℕ → K) :
    ((List.range n).map f).sum = ∑ i in Finset.range n, f i := rfl

theorem range_map_getD (f : K → K) :
    ∀ l : List K, (List.range l.length).map (fun i => f (l.getD i 0)) = l.map f := by
  intro l
  induction l with
  | nil => rfl
  | cons x xs ih =>
    rw [List.length_cons, List.range_succ_eq_map, List.map_cons, List.map_map, List.map_cons]
    refine congrArg (List.cons (f x)) ?_
    simpa [Function.comp_def] using ih

theorem sum_range_getD_two (f : K → K → K) :
    ∀ xs ys : List K, ys.length = xs.length →
      ((List.range xs.length).map fun i => f (xs.getD i 0) (ys.getD i 0)).sum
        = ((xs.zip ys).map fun p => f p.1 p.2).sum := by
  intro xs
  induction xs with
  | nil => intro ys h; rfl
  | cons x xs ih =>
    intro ys h
    cases ys with
    | nil =>
      simp only [List.length_nil, List.length_cons] at h
      exact absurd h (by omega)
    | cons y ys =>
      rw [List.length_cons, List.range_succ_eq_map, List.map_cons, List.map_map,
        List.sum_cons, List.zip_cons_cons, List.map_cons, List.sum_cons]
      simp only [List.getD_cons_zero]
      refine congrArg (fun t => f x y + t) ?_
      have h' : ys.length = xs.length := by simpa using h
      simpa [Function.comp_def] using ih ys h'

theorem sum_range_getD_three (f : K → K → K → K) :
    ∀ ps xs ys : List K, ps.length = xs.length → ys.length = xs.length →
      ((List.range xs.length).map fun i => f (ps.getD i 0) (xs.getD i 0) (ys.getD i 0)).sum
        = ((ps.zip (xs.zip ys)).map fun t => f t.1 t.2.1 t.2.2).sum := by
  intro ps
  induction ps with
  | nil =>
    intro xs ys h1 h2
    have hx : xs = [] := by
      cases xs with
      | nil => rfl
      | cons a l =>
        simp only [List.length_nil, List.length_cons] at h1
        exact absurd h1 (by omega)
    subst hx
    rfl
  | cons p ps ih =>
    intro xs ys h1 h2
    cases xs with
    | nil =>
      simp only [List.length_nil, List.length_cons] at h1
      exact absurd h1 (by omega)
    | cons x xs =>
      cases ys with
      | nil =>
        simp only [List.length_nil, List.length_cons] at h2
        exact absurd h2 (by omega)
      | cons y ys =>
        rw [List.length_cons, List.range_succ_eq_map, List.map_cons, List.map_map,
          List.sum_cons, List.zip_cons_cons, List.zip_cons_cons, List.map_cons, List.sum_cons]
        simp only [List.getD_cons_zero]
        refine congrArg (fun t => f p x y + t) ?_
        have h1' : ps.length = xs.length := by simpa using h1
        have h2' : ys.length = xs.length := by simpa using h2
        simpa [Function.comp_def] using ih xs ys h1' h2'

theorem getD_range_map_of_lt {g : ℕ → K} {m i : ℕ} (hi : i < m) :
    ((List.range m).map g).getD i 0 = g i := by
  have hi' : i < ((List.range m).map g).length := by simpa using hi
  rw [List.getD_eq_getElem _ _ hi']
  simp

/-- C8: `train(model, 0, alpha, inputs, targets)` returns an empty cost
history and leaves `model.w`, `model.b` unchanged. -/
theorem trainModel_zero_epochs (model : NanoNeuron ℚ) (alpha : ℚ) (xs ys : List ℚ) :
    (trainModel model 0 alpha xs ys).2 = [] ∧
    (trainModel model 0 alpha xs ys).1.w = model.w ∧
    (trainModel model 0 alpha xs ys).1.b = model.b :=
  ⟨rfl, rfl, rfl⟩

/-- C9: only the trainer mutates the model. In the state-passing
embedding, `predict`, the forward pass and the backward pass all return
the program state (model fields and input arrays) unchanged; `predict`
is a pure function of the current parameter values and its argument; and
within one training iteration the parameters change exactly once, at the
update step, by `w += averageDeltaW * alpha` and `b += averageDeltaB *
alpha` computed from the pre-update model. -/
theorem only_trainer_mutates_model :
    (∀ (s : ProgState ℚ) (x : ℚ), (predictS s x).2 = s ∧
      (predictS s x).1 = s.model.predict x) ∧
    (∀ s : ProgState ℚ, (forwardPropagationS s).2 = s) ∧
    (∀ (ps : List ℚ) (s : ProgState ℚ), (backwardPropagationS ps s).2 = s) ∧
    (∀ w b x : ℚ, NanoNeuron.predict ⟨w, b⟩ x = x * w + b) ∧
    (∀ (model : NanoNeuron ℚ) (alpha : ℚ) (xs ys : List ℚ),
      (trainStep model alpha xs ys).1.w = model.w +
        (backwardPropagation (forwardPropagation model xs ys).predictions xs ys).averageDeltaW
          * alpha ∧
      (trainStep model alpha xs ys).1.b = model.b +
        (backwardPropagation (forwardPropagation model xs ys).predictions xs ys).averageDeltaB
          * alpha) :=
  ⟨fun _ _ => ⟨rfl, rfl⟩, fun _ => rfl, fun _ _ => rfl, fun _ _ _ => rfl,
   fun _ _ _ _ => ⟨rfl, rfl⟩⟩

theorem trainModel_length (alpha : K) (xs ys : List K) :
    ∀ (epochs : ℕ) (model : NanoNeuron K),
      (trainModel model epochs alpha xs ys).2.length = epochs := by
  intro epochs
  induction epochs with
  | zero => intro model; rfl
  | succ e ih =>
    intro model
    simpa [trainModel] using ih (trainStep model alpha xs ys).1

theorem trainModel_fst (alpha : K) (xs ys : List K) :
    ∀ (epochs : ℕ) (model : NanoNeuron K),
      (trainModel model epochs alpha xs ys).1 =
        (fun mo => (trainStep mo alpha xs ys).1)^[epochs] model := by
  intro epochs
  induction epochs with
  | zero => intro model; rfl
  | succ e ih =>
    intro model
    rw [Function.iterate_succ_apply]
    simpa [trainModel] using ih (trainStep model alpha xs ys).1

theorem trainModel_getD (alpha : K) (xs ys : List K) :
    ∀ (epochs : ℕ) (model : NanoNeuron K) (k : ℕ), k < epochs →
      (trainModel model epochs alpha xs ys).2.getD k 0 =
        (forwardPropagation ((fun mo => (trainStep mo alpha xs ys).1)^[k] model)
          xs ys).averageCost := by
  intro epochs
  induction epochs with
  | zero => intro model k hk; exact absurd hk (by omega)
  | succ e ih =>
    intro model k hk
    cases k with
    | zero => rfl
    | succ j =>
      have hj : j < e := by omega
      rw [Function.iterate_succ_apply]
      simpa [trainModel] using ih (trainStep model alpha xs ys).1 j hj

/-- C1: `trainModel` performs exactly `epochs` iterations in order: the
final model is the `epochs`-fold iterate of the per-iteration step; the
cost history has length `epochs`, its `k`-th entry being the
`averageCost` of the forward pass on the model as it stood at iteration
`k` (recorded before that iteration's update); and each step updates the
parameters by `w += averageDeltaW * alpha`, `b += averageDeltaB *
alpha`, with the deltas obtained by running the backward pass on the
predictions of the forward pass for the current model. -/
theorem trainModel_spec (model : NanoNeuron ℚ) (epochs : ℕ) (alpha : ℚ)
    (xs ys : List ℚ) :
    (trainModel model epochs alpha xs ys).2.length = epochs ∧
    (trainModel model epochs alpha xs ys).1 =
      (fun mo => (trainStep mo alpha xs ys).1)^[epochs] model ∧
    (∀ k, k < epochs →
      (trainModel model epochs alpha xs ys).2.getD k 0 =
        (forwardPropagation ((fun mo => (trainStep mo alpha xs ys).1)^[k] model)
          xs ys).averageCost) ∧
    (∀ mo : NanoNeuron ℚ,
      (trainStep mo alpha xs ys).1.w = mo.w +
        (backwardPropagation (forwardPropagation mo xs ys).predictions xs ys).averageDeltaW
          * alpha ∧
      (trainStep mo alpha xs ys).1.b = mo.b +
        (backwardPropagation (forwardPropagation mo xs ys).predictions xs ys).averageDeltaB
          * alpha) :=
  ⟨trainModel_length alpha xs ys epochs model, trainModel_fst alpha xs ys epochs model,
   fun k hk => trainModel_getD alpha xs ys epochs model k hk, fun _ => ⟨rfl, rfl⟩⟩

/-- Witness for C1 at a concrete input. -/
theorem trainModel_spec_witness :
    (trainModel (⟨1, 0⟩ : NanoNeuron ℚ) 2 1 [1] [2]).2.getD 0 0 =
      (forwardPropagation
        ((fun mo => (trainStep mo 1 [1] [2]).1)^[0] (⟨1, 0⟩ : NanoNeuron ℚ))
        [1] [2]).averageCost :=
  (trainModel_spec ⟨1, 0⟩ 2 1 [1] [2]).2.2.1 0 (by decide)

/-- C2: the forward pass returns predictions of the same length and
order as the inputs, with `predictions[i] = inputs[i] * w + b`, and an
`averageCost` equal to the arithmetic mean of the half-scaled squared
errors `(targets[i] - predictions[i])^2 / 2`. -/
theorem forwardPropagation_spec (model : NanoNeuron ℚ) (xs ys : List ℚ)
    (hlen : ys.length = xs.length) (hne : xs ≠ []) :
    (forwardPropagation model xs ys).predictions.length = xs.length ∧
    (∀ i, i < xs.length →
      (forwardPropagation model xs ys).predictions.getD i 0
        = xs.getD i 0 * model.w + model.b) ∧
    (forwardPropagation model xs ys).averageCost
      = (1 / (xs.length : ℚ)) *
          (((forwardPropagation model xs ys).predictions.zip ys).map
            fun p => (p.2 - p.1) ^ 2 / 2).sum := by
  refine ⟨by simp [forwardPropagation], fun i hi => ?_, ?_⟩
  · show ((List.range xs.length).map fun i => model.predict (xs.getD i 0)).getD i 0 = _
    rw [getD_range_map_of_lt hi]
    rfl
  · have hpred : (forwardPropagation model xs ys).predictions = xs.map model.predict :=
      range_map_getD model.predict xs
    show ((List.range xs.length).map fun i =>
        predictionCost (ys.getD i 0) (model.predict (xs.getD i 0))).sum / (xs.length : ℚ) = _
    rw [hpred, List.zip_map_left, List.map_map]
    have hfun : ((fun p : ℚ × ℚ => (p.2 - p.1) ^ 2 / 2) ∘ Prod.map model.predict id)
        = fun p : ℚ × ℚ => predictionCost p.2 (model.predict p.1) := by
      funext p
      cases p
      rfl
    rw [hfun]
    have hsum := sum_range_getD_two
      (fun x y => predictionCost y (model.predict x)) xs ys hlen
    simp only at hsum
    rw [hsum]
    ring

/-- Witness for C2 at a concrete input. -/
theorem forwardPropagation_spec_witness :
    (forwardPropagation (⟨2, 3⟩ : NanoNeuron ℚ) [1, 2] [5, 9]).averageCost
      = (1 / ((([1, 2] : List ℚ).length : ℕ) : ℚ)) *
          (((forwardPropagation (⟨2, 3⟩ : NanoNeuron ℚ) [1, 2] [5, 9]).predictions.zip
              [5, 9]).map fun p => (p.2 - p.1) ^ 2 / 2).sum :=
  (forwardPropagation_spec ⟨2, 3⟩ [1, 2] [5, 9] rfl (by decide)).2.2

/-- C3: the backward pass returns `averageDeltaW = (1/m) * Σ (targets[i]
- predictions[i]) * inputs[i]` and `averageDeltaB = (1/m) * Σ
(targets[i] - predictions[i])`, summed over the common index pairing of
predictions, inputs and targets. -/
theorem backwardPropagation_spec (ps xs ys : List ℚ)
    (h1 : ps.length = xs.length) (h2 : ys.length = xs.length) (hne : xs ≠ []) :
    (backwardPropagation ps xs ys).averageDeltaW
      = (1 / (xs.length : ℚ)) *
          ((ps.zip (xs.zip ys)).map fun t => (t.2.2 - t.1) * t.2.1).sum ∧
    (backwardPropagation ps xs ys).averageDeltaB
      = (1 / (xs.length : ℚ)) *
          ((ps.zip (xs.zip ys)).map fun t => t.2.2 - t.1).sum := by
  constructor
  · show ((List.range xs.length).map fun i =>
        (ys.getD i 0 - ps.getD i 0) * xs.getD i 0).sum / (xs.length : ℚ) = _
    have hsum := sum_range_getD_three (fun p x y => (y - p) * x) ps xs ys h1 h2
    simp only at hsum
    rw [hsum]
    ring
  · show ((List.range xs.length).map fun i =>
        ys.getD i 0 - ps.getD i 0).sum / (xs.length : ℚ) = _
    have hsum := sum_range_getD_three (fun p _ y => y - p) ps xs ys h1 h2
    simp only at hsum
    rw [hsum]
    ring

/-- Witness for C3 at a concrete input. -/
theorem backwardPropagation_spec_witness :
    (backwardPropagation [(4 : ℚ), 5] [1, 2] [5, 9]).averageDeltaW
      = (1 / ((([1, 2] : List ℚ).length : ℕ) : ℚ)) *
          ((([(4 : ℚ), 5]).zip (([1, 2] : List ℚ).zip [5, 9])).map
            fun t => (t.2.2 - t.1) * t.2.1).sum :=
  (backwardPropagation_spec [4, 5] [1, 2] [5, 9] rfl rfl (by decide)).1

theorem mapM_option_eq_map {α β : Type} (f : α → Option β) (g : α → β) :
    ∀ l : List α, (∀ a ∈ l, f a = some (g a)) → l.mapM f = some (l.map g) := by
  intro l
  induction l with
  | nil => intro _; rfl
  | cons a l ih =>
    intro h
    rw [List.mapM_cons, h a (List.mem_cons_self a l),
      ih fun b hb => h b (List.mem_cons_of_mem a hb)]
    rfl

theorem get?_eq_some_getD (d : K) {l : List K} {i : ℕ} (hi : i < l.length) :
    l.get? i = some (l.getD i d) := by
  rw [List.getD_eq_getElem _ _ hi]
  simp [List.get?_eq_get hi]

/-- C10: under the stated length preconditions and with at least one
sample, the bounds-checked forward and backward passes succeed and agree
with the unchecked code, i.e. every index access of the loops is in
bounds and the final division is by the nonzero sample count. -/
theorem propagation_no_unsafe_access (model : NanoNeuron ℚ) (ps xs ys : List ℚ)
    (h1 : ys.length = xs.length) (h2 : ps.length = xs.length) (hne : xs ≠ []) :
    forwardPropagationChecked model xs ys = some (forwardPropagation model xs ys) ∧
    backwardPropagationChecked ps xs ys = some (backwardPropagation ps xs ys) := by
  have hm : xs.length ≠ 0 := fun h => hne (List.length_eq_zero.mp h)
  constructor
  · simp only [forwardPropagationChecked]
    rw [mapM_option_eq_map _ (fun i => model.predict (xs.getD i 0)) _ ?_,
      mapM_option_eq_map _
        (fun i => predictionCost (ys.getD i 0) (model.predict (xs.getD i 0))) _ ?_]
    · simp [hm, forwardPropagation]
    · intro i hi
      have hix : i < xs.length := List.mem_range.mp hi
      have hiy : i < ys.length := by omega
      rw [get?_eq_some_getD 0 hix, get?_eq_some_getD 0 hiy]
      rfl
    · intro i hi
      rw [get?_eq_some_getD 0 (List.mem_range.mp hi)]
      rfl
  · simp only [backwardPropagationChecked]
    rw [mapM_option_eq_map _
        (fun i => (ys.getD i 0 - ps.getD i 0) * xs.getD i 0) _ ?_,
      mapM_option_eq_map _ (fun i => ys.getD i 0 - ps.getD i 0) _ ?_]
    · simp [hm, backwardPropagation]
    · intro i hi
      have hix : i < xs.length := List.mem_range.mp hi
      have hiy : i < ys.length := by omega
      have hip : i < ps.length := by omega
      rw [get?_eq_some_getD 0 hiy, get?_eq_some_getD 0 hip]
      rfl
    · intro i hi
      have hix : i < xs.length := List.mem_range.mp hi
      have hiy : i < ys.length := by omega
      have hip : i < ps.length := by omega
      rw [get?_eq_some_getD 0 hiy, get?_eq_some_getD 0 hip, get?_eq_some_getD 0 hix]
      rfl

/-- Witness for C10 at a concrete input. -/
theorem propagation_no_unsafe_access_witness :
    forwardPropagationChecked (⟨2, 3⟩ : NanoNeuron ℚ) [1, 2] [5, 9]
      = some (forwardPropagation (⟨2, 3⟩ : NanoNeuron ℚ) [1, 2] [5, 9]) :=
  (propagation_no_unsafe_access ⟨2, 3⟩ [4, 5] [1, 2] [5, 9] rfl rfl (by decide)).1

/-- C7 fails as stated: with the single sample `inputs = [0]`, `targets
= [1]` and `predictions = [0]`, the predictions are uniformly below the
targets, yet `averageDeltaW = (1 - 0) * 0 / 1 = 0` is not positive. -/
theorem gradient_sign_cex :
    ([(0 : ℚ)] : List ℚ).length = ([(0 : ℚ)] : List ℚ).length ∧
    ([(1 : ℚ)] : List ℚ).length = ([(0 : ℚ)] : List ℚ).length ∧
    ([(0 : ℚ)] : List ℚ) ≠ [] ∧
    (∀ i, i < ([(0 : ℚ)] : List ℚ).length →
      ([(0 : ℚ)] : List ℚ).getD i 0 < ([(1 : ℚ)] : List ℚ).getD i 0) ∧
    ¬ (0 < (backwardPropagation [(0 : ℚ)] [(0 : ℚ)] [(1 : ℚ)]).averageDeltaW ∧
       0 < (backwardPropagation [(0 : ℚ)] [(0 : ℚ)] [(1 : ℚ)]).averageDeltaB) := by
  refine ⟨rfl, rfl, by simp, ?_, ?_⟩
  · intro i hi
    have hz : i = 0 := by simpa using hi
    subst hz
    norm_num
  · rintro ⟨hW, hB⟩
    have h0 : (backwardPropagation [(0 : ℚ)] [(0 : ℚ)] [(1 : ℚ)]).averageDeltaW = 0 := by
      norm_num [backwardPropagation, List.range_succ]
    rw [h0] at hW
    exact lt_irrefl 0 hW

/-- C7 amended: under the claimed hypotheses, `averageDeltaB` is always
positive, and `averageDeltaW` is positive as soon as every input is
strictly positive (the extra hypothesis forced by the counterexample
with a zero input). -/
theorem gradient_sign_amended (ps xs ys : List ℚ)
    (h1 : ps.length = xs.length) (h2 : ys.length = xs.length) (hne : xs ≠ [])
    (hbelow : ∀ i, i < xs.length → ps.getD i 0 < ys.getD i 0) :
    0 < (backwardPropagation ps xs ys).averageDeltaB ∧
    ((∀ x ∈ xs, 0 < x) → 0 < (backwardPropagation ps xs ys).averageDeltaW) := by
  have hm0 : xs.length ≠ 0 := fun h => hne (List.length_eq_zero.mp h)
  have hmQ : (0 : ℚ) < (xs.length : ℚ) := by
    have : 0 < xs.length := List.length_pos.mpr hne
    exact_mod_cast this
  have hrange : ∀ f : ℕ → ℚ, ((List.range xs.length).map f) ≠ [] := by
    intro f
    simp only [Ne, List.map_eq_nil_iff, List.range_eq_nil]
    exact hm0
  constructor
  · show 0 < ((List.range xs.length).map fun i =>
      ys.getD i 0 - ps.getD i 0).sum / (xs.length : ℚ)
    refine div_pos (List.sum_pos _ ?_ (hrange _)) hmQ
    intro a ha
    obtain ⟨i, hi, rfl⟩ := List.mem_map.mp ha
    have hlt := hbelow i (List.mem_range.mp hi)
    linarith
  · intro hx
    show 0 < ((List.range xs.length).map fun i =>
      (ys.getD i 0 - ps.getD i 0) * xs.getD i 0).sum / (xs.length : ℚ)
    refine div_pos (List.sum_pos _ ?_ (hrange _)) hmQ
    intro a ha
    obtain ⟨i, hi, rfl⟩ := List.mem_map.mp ha
    have hilt : i < xs.length := List.mem_range.mp hi
    have hmem : xs.getD i 0 ∈ xs := by
      rw [List.getD_eq_getElem _ _ hilt]
      exact List.getElem_mem hilt
    exact mul_pos (by linarith [hbelow i hilt]) (hx _ hmem)

/-- Witness for the amended C7 at a concrete input. -/
theorem gradient_sign_amended_witness :
    0 < (backwardPropagation [(0 : ℚ)] [1] [2]).averageDeltaB :=
  (gradient_sign_amended [0] [1] [2] rfl rfl (by decide) (by decide)).1

/-- C6: the dataset generator is deterministic (a constant of the
embedding) and produces the training inputs 0, 1, ..., 99 in increasing
order, the test inputs 0.5, 1.5, ..., 99.5, targets equal to `input *
1.8 + 32` on both sets, and no test input coincides with a training
input. -/
theorem generateDataSets_spec :
    generateDataSets.xTrain.length = 100 ∧
    (∀ i, i < 100 → generateDataSets.xTrain.getD i 0 = (i : ℚ)) ∧
    generateDataSets.yTrain.length = 100 ∧
    (∀ i, i < 100 → generateDataSets.yTrain.getD i 0
        = generateDataSets.xTrain.getD i 0 * 1.8 + 32) ∧
    generateDataSets.xTest.length = 100 ∧
    (∀ i, i < 100 → generateDataSets.xTest.getD i 0 = (i : ℚ) + 0.5) ∧
    generateDataSets.yTest.length = 100 ∧
    (∀ i, i < 100 → generateDataSets.yTest.getD i 0
        = generateDataSets.xTest.getD i 0 * 1.8 + 32) ∧
    (∀ x ∈ generateDataSets.xTest, x ∉ generateDataSets.xTrain) := by
  refine ⟨by simp [generateDataSets], fun i hi => ?_, by simp [generateDataSets],
    fun i hi => ?_, by simp [generateDataSets], fun i hi => ?_,
    by simp [generateDataSets], fun i hi => ?_, fun x hx hmem => ?_⟩
  · exact getD_range_map_of_lt hi
  · show ((List.range 100).map fun n : ℕ => celsiusToFahrenheit (n : ℚ)).getD i 0
      = ((List.range 100).map fun n : ℕ => (n : ℚ)).getD i 0 * 1.8 + 32
    rw [getD_range_map_of_lt hi, getD_range_map_of_lt hi]
    norm_num [celsiusToFahrenheit, W, B]
  · exact getD_range_map_of_lt hi
  · show ((List.range 100).map fun n : ℕ => celsiusToFahrenheit ((n : ℚ) + 0.5)).getD i 0
      = ((List.range 100).map fun n : ℕ => (n : ℚ) + 0.5).getD i 0 * 1.8 + 32
    rw [getD_range_map_of_lt hi, getD_range_map_of_lt hi]
    norm_num [celsiusToFahrenheit, W, B]
  · have hx2 : x ∈ (List.range 100).map fun n : ℕ => (n : ℚ) + 0.5 := hx
    have hmem2 : x ∈ (List.range 100).map fun n : ℕ => (n : ℚ) := hmem
    obtain ⟨n, hn, rfl⟩ := List.mem_map.mp hx2
    obtain ⟨m, hm', heq⟩ := List.mem_map.mp hmem2
    have h3 : ((2 * m : ℕ) : ℚ) = ((2 * n + 1 : ℕ) : ℚ) := by
      push_cast
      norm_num at heq
      linarith
    have h4 : 2 * m = 2 * n + 1 := Nat.cast_injective h3
    omega

theorem averageCost_shift_w (w b h : K) (xs ys : List K) (hne : xs ≠ []) :
    (forwardPropagation ⟨w + h, b⟩ xs ys).averageCost
      = (forwardPropagation ⟨w, b⟩ xs ys).averageCost
        - (backwardPropagation (forwardPropagation ⟨w, b⟩ xs ys).predictions xs ys).averageDeltaW
            * h
        + (((List.range xs.length).map fun i => xs.getD i 0 ^ 2).sum
            / (2 * (xs.length : K))) * h ^ 2 := by
  have hm : (xs.length : K) ≠ 0 := by
    have h0 : xs.length ≠ 0 := fun hh => hne (List.length_eq_zero.mp hh)
    exact_mod_cast h0
  have hcost : ∀ model : NanoNeuron K, (forwardPropagation model xs ys).averageCost
      = (∑ i in Finset.range xs.length,
          predictionCost (ys.getD i 0) (model.predict (xs.getD i 0))) / (xs.length : K) :=
    fun _ => rfl
  have hW : (backwardPropagation (forwardPropagation ⟨w, b⟩ xs ys).predictions
        xs ys).averageDeltaW
      = (∑ i in Finset.range xs.length,
          (ys.getD i 0 - NanoNeuron.predict ⟨w, b⟩ (xs.getD i 0)) * xs.getD i 0)
            / (xs.length : K) := by
    have hraw : (backwardPropagation (forwardPropagation ⟨w, b⟩ xs ys).predictions
          xs ys).averageDeltaW
        = (∑ i in Finset.range xs.length,
            (ys.getD i 0 - (forwardPropagation ⟨w, b⟩ xs ys).predictions.getD i 0)
              * xs.getD i 0) / (xs.length : K) := rfl
    rw [hraw]
    congr 1
    refine Finset.sum_congr rfl fun i hi => ?_
    have hmap : (forwardPropagation ⟨w, b⟩ xs ys).predictions
        = (List.range xs.length).map fun j => NanoNeuron.predict ⟨w, b⟩ (xs.getD j 0) := rfl
    rw [hmap, getD_range_map_of_lt (Finset.mem_range.mp hi)]
  have hsq : ((List.range xs.length).map fun i => xs.getD i 0 ^ 2).sum
      = ∑ i in Finset.range xs.length, xs.getD i 0 ^ 2 := rfl
  rw [hcost, hcost, hW, hsq]
  have key : (∑ i in Finset.range xs.length,
      predictionCost (ys.getD i 0) (NanoNeuron.predict ⟨w + h, b⟩ (xs.getD i 0)))
      = (∑ i in Finset.range xs.length,
          predictionCost (ys.getD i 0) (NanoNeuron.predict ⟨w, b⟩ (xs.getD i 0)))
        - (∑ i in Finset.range xs.length,
            (ys.getD i 0 - NanoNeuron.predict ⟨w, b⟩ (xs.getD i 0)) * xs.getD i 0) * h
        + (∑ i in Finset.range xs.length, xs.getD i 0 ^ 2) * (h ^ 2 / 2) := by
    rw [Finset.sum_mul, Finset.sum_mul, ← Finset.sum_sub_distrib, ← Finset.sum_add_distrib]
    refine Finset.sum_congr rfl fun i _ => ?_
    simp only [predictionCost, NanoNeuron.predict]
    ring
  rw [key]
  field_simp
  ring

theorem averageCost_shift_b (w b h : K) (xs ys : List K) (hne : xs ≠ []) :
    (forwardPropagation ⟨w, b + h⟩ xs ys).averageCost
      = (forwardPropagation ⟨w, b⟩ xs ys).averageCost
        - (backwardPropagation (forwardPropagation ⟨w, b⟩ xs ys).predictions xs ys).averageDeltaB
            * h
        + (1 / 2) * h ^ 2 := by
  have hm : (xs.length : K) ≠ 0 := by
    have h0 : xs.length ≠ 0 := fun hh => hne (List.length_eq_zero.mp hh)
    exact_mod_cast h0
  have hcost : ∀ model : NanoNeuron K, (forwardPropagation model xs ys).averageCost
      = (∑ i in Finset.range xs.length,
          predictionCost (ys.getD i 0) (model.predict (xs.getD i 0))) / (xs.length : K) :=
    fun _ => rfl
  have hB : (backwardPropagation (forwardPropagation ⟨w, b⟩ xs ys).predictions
        xs ys).averageDeltaB
      = (∑ i in Finset.range xs.length,
          (ys.getD i 0 - NanoNeuron.predict ⟨w, b⟩ (xs.getD i 0)))
            / (xs.length : K) := by
    have hraw : (backwardPropagation (forwardPropagation ⟨w, b⟩ xs ys).predictions
          xs ys).averageDeltaB
        = (∑ i in Finset.range xs.length,
            (ys.getD i 0 - (forwardPropagation ⟨w, b⟩ xs ys).predictions.getD i 0))
              / (xs.length : K) := rfl
    rw [hraw]
    congr 1
    refine Finset.sum_congr rfl fun i hi => ?_
    have hmap : (forwardPropagation ⟨w, b⟩ xs ys).predictions
        = (List.range xs.length).map fun j => NanoNeuron.predict ⟨w, b⟩ (xs.getD j 0) := rfl
    rw [hmap, getD_range_map_of_lt (Finset.mem_range.mp hi)]
  rw [hcost, hcost, hB]
  have key : (∑ i in Finset.range xs.length,
      predictionCost (ys.getD i 0) (NanoNeuron.predict ⟨w, b + h⟩ (xs.getD i 0)))
      = (∑ i in Finset.range xs.length,
          predictionCost (ys.getD i 0) (NanoNeuron.predict ⟨w, b⟩ (xs.getD i 0)))
        - (∑ i in Finset.range xs.length,
            (ys.getD i 0 - NanoNeuron.predict ⟨w, b⟩ (xs.getD i 0))) * h
        + (∑ i in Finset.range xs.length, (1 : K)) * (h ^ 2 / 2) := by
    rw [Finset.sum_mul, Finset.sum_mul, ← Finset.sum_sub_distrib, ← Finset.sum_add_distrib]
    refine Finset.sum_congr rfl fun i _ => ?_
    simp only [predictionCost, NanoNeuron.predict]
    ring
  rw [key, Finset.sum_const, Finset.card_range, nsmul_eq_mul, mul_one]
  field_simp
  ring

theorem hasDerivAt_of_quadratic {F : ℝ → ℝ} {w D Q c : ℝ}
    (hexp : ∀ v : ℝ, F v = c - D * (v - w) + Q * (v - w) ^ 2) :
    HasDerivAt F (-D) w := by
  have h1 : HasDerivAt (fun v : ℝ => v - w) 1 w := (hasDerivAt_id w).sub_const w
  have h5 := ((hasDerivAt_const w c).sub (h1.const_mul D)).add ((h1.pow 2).const_mul Q)
  have h6 : HasDerivAt (fun v : ℝ => c - D * (v - w) + Q * (v - w) ^ 2) (-D) w := by
    convert h5 using 1
    simp
  exact h6.congr_of_eventuallyEq (Filter.Eventually.of_forall fun v => hexp v)

/-- C4: for predictions produced by the forward pass, the backward pass
returns the negative partial derivatives of the forward pass's
`averageCost` with respect to `w` and `b`: moving each parameter in the
direction of its delta decreases the cost to first order. Stated over
`ℝ` via `HasDerivAt`. -/
theorem backprop_is_neg_gradient (w b : ℝ) (xs ys : List ℝ) (hne : xs ≠ []) :
    HasDerivAt (fun v => (forwardPropagation ⟨v, b⟩ xs ys).averageCost)
      (-(backwardPropagation (forwardPropagation ⟨w, b⟩ xs ys).predictions
          xs ys).averageDeltaW) w ∧
    HasDerivAt (fun v => (forwardPropagation ⟨w, v⟩ xs ys).averageCost)
      (-(backwardPropagation (forwardPropagation ⟨w, b⟩ xs ys).predictions
          xs ys).averageDeltaB) b := by
  constructor
  · exact @hasDerivAt_of_quadratic _ w _
      (((List.range xs.length).map fun i => xs.getD i 0 ^ 2).sum / (2 * (xs.length : ℝ)))
      ((forwardPropagation ⟨w, b⟩ xs ys).averageCost)
      (fun v => by
        have h0 := averageCost_shift_w w b (v - w) xs ys hne
        rw [show w + (v - w) = v from by ring] at h0
        exact h0)
  · exact @hasDerivAt_of_quadratic _ b _ (1 / 2)
      ((forwardPropagation ⟨w, b⟩ xs ys).averageCost)
      (fun v => by
        have h0 := averageCost_shift_b w b (v - b) xs ys hne
        rw [show b + (v - b) = v from by ring] at h0
        exact h0)

/-- Witness for C4 at a concrete input. -/
theorem backprop_is_neg_gradient_witness :
    HasDerivAt (fun v => (forwardPropagation ⟨v, (0 : ℝ)⟩ [1] [2]).averageCost)
      (-(backwardPropagation (forwardPropagation ⟨(1 : ℝ), 0⟩ [1] [2]).predictions
          [1] [2]).averageDeltaW) 1 :=
  (backprop_is_neg_gradient 1 0 [1] [2] (by simp)).1

end NanoNeuronTS
